import Mathlib

/-!
Verification of the Prof Tournesol controller
(`tournesol/controller/main.go`, the enriched variant).

Strings are modelled as lists of characters (`Str`); the Go standard
library helpers used by the controller (`strings.Contains`, `Index`,
`SplitN`, `TrimSpace`, `HasPrefix`/`HasSuffix`, `strconv.Atoi`,
`strconv.ParseInt`) are re-implemented below with Go's semantics on the
ASCII inputs the controller handles.  Time durations are integer
nanoseconds, as in Go's `time.Duration`.  Concurrency is modelled by
linearising the mutex-guarded check-and-set of the processed map: the
mutex serialises the critical section, so every concurrent execution is
equivalent to some sequence of atomic gate operations, over which the
theorems quantify.
-/

namespace ProfTournesol

set_option maxRecDepth 40000

abbrev Str := List Char

/-! ## Go string helpers -/

/-- `strings.HasPrefix s p` (second argument is the pattern). -/
def strStartsWith : Str → Str → Bool
  | _, [] => true
  | [], _ :: _ => false
  | c :: s, d :: p => c == d && strStartsWith s p

/-- `strings.HasSuffix s p`. -/
def strEndsWith (s p : Str) : Bool := strStartsWith s.reverse p.reverse

/-- `strings.Contains s p`. -/
def containsSub : Str → Str → Bool
  | [], p => strStartsWith [] p
  | c :: t, p => strStartsWith (c :: t) p || containsSub t p

/-- `strings.Index s p`, as `none` instead of `-1`. -/
def indexOfSub : Str → Str → Option Nat
  | [], p => if strStartsWith [] p then some 0 else none
  | c :: t, p =>
    if strStartsWith (c :: t) p then some 0 else (indexOfSub t p).map (· + 1)

/-- The ASCII white-space characters recognised by Go's
`unicode.IsSpace` (the controller only ever trims ASCII text). -/
def isSpaceChar (c : Char) : Bool :=
  c == ' ' || c == '\t' || c == '\n' || c == '\r' ||
  c == Char.ofNat 11 || c == Char.ofNat 12

def trimLeading (s : Str) : Str := s.dropWhile isSpaceChar

def trimTrailing (s : Str) : Str := (s.reverse.dropWhile isSpaceChar).reverse

/-- `strings.TrimSpace`. -/
def goTrimSpace (s : Str) : Str := trimTrailing (trimLeading s)

/-- `strings.Split s (String.singleton sep)`: split on every occurrence
of a one-character separator. -/
def splitOnChar (sep : Char) : Str → List Str
  | [] => [[]]
  | c :: t =>
    if c == sep then [] :: splitOnChar sep t
    else
      match splitOnChar sep t with
      | [] => [[c]]
      | h :: r => (c :: h) :: r

/-- `strings.Join`. -/
def joinWith (sep : Str) : List Str → Str
  | [] => []
  | [x] => x
  | x :: y :: r => x ++ sep ++ joinWith sep (y :: r)

/-- `strings.SplitN s sep 2` for a non-empty separator. -/
def splitN2 (s sep : Str) : List Str :=
  match indexOfSub s sep with
  | none => [s]
  | some i => [s.take i, s.drop (i + sep.length)]

def isDigitChar (c : Char) : Bool := '0' ≤ c && c ≤ '9'

/-- Numeric value of a digit string (used under an all-digits guard). -/
def digitsVal (l : Str) : Nat :=
  l.foldl (fun a c => a * 10 + (c.toNat - ('0').toNat)) 0

def allDigits (l : Str) : Bool := l.all isDigitChar

/-- `strconv.ParseInt s 10 64`: optional sign followed by at least one
digit (64-bit overflow, which only occurs far outside the controller's
inputs, is not modelled). -/
def goParseInt (s : Str) : Option Int :=
  match s with
  | [] => none
  | '+' :: r => if !r.isEmpty && allDigits r then some (Int.ofNat (digitsVal r)) else none
  | '-' :: r => if !r.isEmpty && allDigits r then some (-(Int.ofNat (digitsVal r))) else none
  | l => if allDigits l then some (Int.ofNat (digitsVal l)) else none

/-- Decimal rendering of a natural number. -/
def natToStr (n : Nat) : Str := (Nat.repr n).data

/-! ## Basic lemmas about the string helpers -/

theorem strStartsWith_nil_pattern (s : Str) : strStartsWith s [] = true := by
  cases s <;> rfl

theorem strStartsWith_cons {s : Str} {c : Char} {p : Str}
    (h : strStartsWith s (c :: p) = true) :
    ∃ s2, s = c :: s2 ∧ strStartsWith s2 p = true := by
  cases s with
  | nil => simp [strStartsWith] at h
  | cons a t =>
    simp only [strStartsWith, Bool.and_eq_true, beq_iff_eq] at h
    exact ⟨t, by rw [h.1], h.2⟩

theorem strStartsWith_head_ne {c d : Char} (h : c ≠ d) (s p : Str) :
    strStartsWith (c :: s) (d :: p) = false := by
  simp [strStartsWith, h]

theorem strStartsWith_append_self (a x : Str) :
    strStartsWith (a ++ x) a = true := by
  induction a with
  | nil => exact strStartsWith_nil_pattern x
  | cons c t ih => simp [strStartsWith, ih]

theorem strStartsWith_refl (a : Str) : strStartsWith a a = true := by
  have := strStartsWith_append_self a []
  simpa using this

theorem strStartsWith_ne_nil {s : Str} {c : Char} {p : Str}
    (h : strStartsWith s (c :: p) = true) : s ≠ [] := by
  rcases strStartsWith_cons h with ⟨s2, hs, _⟩
  simp [hs]

/-- `strings.HasPrefix s p` means `s` decomposes as `p ++ rest`. -/
theorem strStartsWith_iff_parts (s p : Str) :
    strStartsWith s p = true ↔ ∃ r, s = p ++ r := by
  induction p generalizing s with
  | nil => simp [strStartsWith_nil_pattern]
  | cons c q ih =>
    constructor
    · intro h
      rcases strStartsWith_cons h with ⟨s2, hs, h2⟩
      rcases (ih s2).mp h2 with ⟨r, hr⟩
      exact ⟨r, by simp [hs, hr]⟩
    · rintro ⟨r, rfl⟩
      simp only [List.cons_append, strStartsWith, beq_self_eq_true, Bool.true_and]
      exact (ih _).mpr ⟨r, rfl⟩

theorem containsSub_of_startsWith {s p : Str} (h : strStartsWith s p = true) :
    containsSub s p = true := by
  cases s with
  | nil => simpa [containsSub] using h
  | cons c t => simp [containsSub, h]

theorem containsSub_cons_of_tail {c : Char} {t p : Str}
    (h : containsSub t p = true) : containsSub (c :: t) p = true := by
  simp [containsSub, h]

/-- `strings.Contains s p` means `s` decomposes as `a ++ p ++ b`. -/
theorem containsSub_iff_parts (s p : Str) :
    containsSub s p = true ↔ ∃ a b, s = a ++ (p ++ b) := by
  induction s with
  | nil =>
    simp only [containsSub]
    constructor
    · intro h
      rcases (strStartsWith_iff_parts [] p).mp h with ⟨r, hr⟩
      exact ⟨[], r, hr⟩
    · rintro ⟨a, b, hab⟩
      have : p = [] := by
        rcases List.append_eq_nil.mp hab.symm with ⟨_, h2⟩
        exact (List.append_eq_nil.mp h2).1
      simp [this, strStartsWith_nil_pattern]
  | cons c t ih =>
    simp only [containsSub, Bool.or_eq_true]
    constructor
    · intro h
      rcases h with h | h
      · rcases (strStartsWith_iff_parts _ p).mp h with ⟨r, hr⟩
        exact ⟨[], r, by simpa using hr⟩
      · rcases ih.mp h with ⟨a, b, hab⟩
        exact ⟨c :: a, b, by simp [hab]⟩
    · rintro ⟨a, b, hab⟩
      cases a with
      | nil =>
        left
        exact (strStartsWith_iff_parts _ p).mpr ⟨b, by simpa using hab⟩
      | cons a0 a1 =>
        right
        refine ih.mpr ⟨a1, b, ?_⟩
        have := hab
        simp only [List.cons_append] at this
        exact (List.cons.injEq _ _ _ _ ▸ this).2

theorem containsSub_append_right {b p : Str} (h : containsSub b p = true)
    (a : Str) : containsSub (a ++ b) p = true := by
  rcases (containsSub_iff_parts b p).mp h with ⟨x, y, hxy⟩
  exact (containsSub_iff_parts _ p).mpr ⟨a ++ x, y, by simp [hxy]⟩

theorem containsSub_append_left {a p : Str} (h : containsSub a p = true)
    (b : Str) : containsSub (a ++ b) p = true := by
  rcases (containsSub_iff_parts a p).mp h with ⟨x, y, hxy⟩
  exact (containsSub_iff_parts _ p).mpr ⟨x, y ++ b, by simp [hxy]⟩

theorem containsSub_trans {s l p : Str} (h1 : containsSub s l = true)
    (h2 : containsSub l p = true) : containsSub s p = true := by
  rcases (containsSub_iff_parts s l).mp h1 with ⟨a, b, hab⟩
  rcases (containsSub_iff_parts l p).mp h2 with ⟨x, y, hxy⟩
  refine (containsSub_iff_parts s p).mpr ⟨a ++ x, y ++ b, ?_⟩
  simp [hab, hxy]

theorem trimTrailing_append_eq (x : Str) :
    trimTrailing x ++ (List.takeWhile isSpaceChar x.reverse).reverse = x := by
  rw [trimTrailing, ← List.reverse_append, List.takeWhile_append_dropWhile,
    List.reverse_reverse]

theorem trimLeading_append_eq (x : Str) :
    List.takeWhile isSpaceChar x ++ trimLeading x = x := by
  simp [trimLeading]

/-- Trimming only removes characters, so anything contained in the
trimmed string is contained in the original. -/
theorem containsSub_of_trim {l p : Str}
    (h : containsSub (goTrimSpace l) p = true) : containsSub l p = true := by
  have h1 : containsSub (trimLeading l) p = true := by
    have := containsSub_append_left (a := goTrimSpace l) (p := p) h
      ((List.takeWhile isSpaceChar (trimLeading l).reverse).reverse)
    rw [goTrimSpace, trimTrailing_append_eq] at this
    exact this
  have := containsSub_append_right (b := trimLeading l) (p := p) h1
    (List.takeWhile isSpaceChar l)
  rwa [trimLeading_append_eq] at this

/-! ## Split / join lemmas -/

theorem splitOnChar_ne_nil (sep : Char) (s : Str) : splitOnChar sep s ≠ [] := by
  cases s with
  | nil => simp [splitOnChar]
  | cons c t =>
    simp only [splitOnChar]
    by_cases h : (c == sep) = true
    · simp [h]
    · simp only [h, if_neg]
      cases hs : splitOnChar sep t <;> simp

theorem joinWith_cons (sep : Str) (x : Str) (y : Str) (r : List Str) :
    joinWith sep (x :: y :: r) = x ++ sep ++ joinWith sep (y :: r) := rfl

theorem join_splitOnChar (sep : Char) (s : Str) :
    joinWith [sep] (splitOnChar sep s) = s := by
  induction s with
  | nil => rfl
  | cons c t ih =>
    simp only [splitOnChar]
    by_cases h : (c == sep) = true
    · have hc : c = sep := by simpa using h
      rcases hx : splitOnChar sep t with _ | ⟨h1, r1⟩
      · exact absurd hx (splitOnChar_ne_nil sep t)
      · rw [if_pos h, joinWith_cons]
        rw [hx] at ih
        simp [hc, ih]
    · rw [if_neg h]
      rcases hx : splitOnChar sep t with _ | ⟨h1, r1⟩
      · exact absurd hx (splitOnChar_ne_nil sep t)
      · rw [hx] at ih
        cases r1 with
        | nil => simpa [joinWith] using ih
        | cons h2 r2 =>
          rw [joinWith_cons] at ih ⊢
          simp [← ih]

theorem splitOnChar_single {sep : Char} {l : Str} (h : sep ∉ l) :
    splitOnChar sep l = [l] := by
  induction l with
  | nil => rfl
  | cons c t ih =>
    have hc : ¬ (c == sep) = true := by
      simp only [beq_iff_eq]
      intro hh
      exact h (hh ▸ List.mem_cons_self c t)
    have ht : sep ∉ t := fun hm => h (List.mem_cons_of_mem c hm)
    simp [splitOnChar, hc, ih ht]

theorem splitOnChar_append_sep {sep : Char} {x : Str} (h : sep ∉ x) (w : Str) :
    splitOnChar sep (x ++ sep :: w) = x :: splitOnChar sep w := by
  induction x with
  | nil => simp [splitOnChar]
  | cons c t ih =>
    have hc : ¬ (c == sep) = true := by
      simp only [beq_iff_eq]
      intro hh
      exact h (hh ▸ List.mem_cons_self c t)
    have ht : sep ∉ t := fun hm => h (List.mem_cons_of_mem c hm)
    have := ih ht
    simp [List.cons_append, splitOnChar, hc, this]

theorem splitOnChar_joinWith {sep : Char} :
    ∀ {ls : List Str}, ls ≠ [] → (∀ l ∈ ls, sep ∉ l) →
      splitOnChar sep (joinWith [sep] ls) = ls := by
  intro ls
  induction ls with
  | nil => intro h; exact absurd rfl h
  | cons x r ih =>
    intro _ hmem
    cases r with
    | nil =>
      simp only [joinWith]
      exact splitOnChar_single (hmem x (List.mem_cons_self x []))
    | cons y r2 =>
      rw [joinWith_cons]
      have hx : sep ∉ x := hmem x (List.mem_cons_self _ _)
      have : x ++ [sep] ++ joinWith [sep] (y :: r2)
          = x ++ sep :: joinWith [sep] (y :: r2) := by simp
      rw [this, splitOnChar_append_sep hx]
      rw [ih (by simp) (fun l hl => hmem l (List.mem_cons_of_mem x hl))]

theorem mem_splitOnChar_not_mem {sep : Char} :
    ∀ {s l : Str}, l ∈ splitOnChar sep s → sep ∉ l := by
  intro s
  induction s with
  | nil =>
    intro l hl
    simp only [splitOnChar, List.mem_singleton] at hl
    simp [hl]
  | cons c t ih =>
    intro l hl
    simp only [splitOnChar] at hl
    by_cases h : (c == sep) = true
    · rw [if_pos h] at hl
      rcases List.mem_cons.mp hl with h1 | h1
      · simp [h1]
      · exact ih h1
    · rw [if_neg h] at hl
      rcases hs : splitOnChar sep t with _ | ⟨h1, r1⟩
      · exact absurd hs (splitOnChar_ne_nil sep t)
      · rw [hs] at hl
        rcases List.mem_cons.mp hl with h2 | h2
        · subst h2
          intro hm
          rcases List.mem_cons.mp hm with h3 | h3
          · exact h (by simp [h3])
          · have : h1 ∈ splitOnChar sep t := by rw [hs]; exact List.mem_cons_self _ _
            exact ih this h3
        · have : l ∈ splitOnChar sep t := by rw [hs]; exact List.mem_cons_of_mem _ h2
          exact ih this

/-- Every piece produced by the splitter occurs inside the original
string (the first piece as a prefix, all others somewhere after a
separator). -/
theorem containsSub_of_mem_splitOnChar {sep : Char} :
    ∀ {s l : Str}, l ∈ splitOnChar sep s → containsSub s l = true := by
  have main : ∀ s : Str,
      (∃ h r, splitOnChar sep s = h :: r ∧ strStartsWith s h = true) ∧
      (∀ l ∈ splitOnChar sep s, containsSub s l = true) := by
    intro s
    induction s with
    | nil =>
      constructor
      · exact ⟨[], [], rfl, rfl⟩
      · intro l hl
        simp only [splitOnChar, List.mem_singleton] at hl
        simp [hl, containsSub, strStartsWith_nil_pattern]
    | cons c t ih =>
      by_cases h : (c == sep) = true
      · constructor
        · exact ⟨[], splitOnChar sep t, by simp [splitOnChar, h],
            strStartsWith_nil_pattern _⟩
        · intro l hl
          simp only [splitOnChar, if_pos h] at hl
          rcases List.mem_cons.mp hl with h1 | h1
          · subst h1
            exact containsSub_of_startsWith (strStartsWith_nil_pattern _)
          · exact containsSub_cons_of_tail (ih.2 l h1)
      · rcases ih.1 with ⟨hh, rr, hsp, hpre⟩
        constructor
        · refine ⟨c :: hh, rr, ?_, ?_⟩
          · simp [splitOnChar, h, hsp]
          · simp [strStartsWith, hpre]
        · intro l hl
          simp only [splitOnChar, if_neg h, hsp] at hl
          rcases List.mem_cons.mp hl with h1 | h1
          · subst h1
            exact containsSub_of_startsWith (by simp [strStartsWith, hpre])
          · have : l ∈ splitOnChar sep t := by rw [hsp]; exact List.mem_cons_of_mem _ h1
            exact containsSub_cons_of_tail (ih.2 l this)
  intro s l hl
  exact (main s).2 l hl

/-! ## dropWhile / takeWhile append lemmas -/

theorem dropWhile_append_of_nil {p : Char → Bool} {u : Str}
    (h : List.dropWhile p u = []) (v : Str) :
    List.dropWhile p (u ++ v) = List.dropWhile p v := by
  induction u with
  | nil => rfl
  | cons c t ih =>
    simp only [List.dropWhile_cons] at h
    by_cases hc : p c = true
    · rw [if_pos hc] at h
      simp only [List.cons_append, List.dropWhile_cons, hc, if_true]
      exact ih h
    · rw [if_neg hc] at h
      exact absurd h (by simp)

theorem dropWhile_append_of_ne_nil {p : Char → Bool} {u : Str}
    (h : List.dropWhile p u ≠ []) (v : Str) :
    List.dropWhile p (u ++ v) = List.dropWhile p u ++ v := by
  induction u with
  | nil => exact absurd rfl h
  | cons c t ih =>
    simp only [List.dropWhile_cons] at h
    by_cases hc : p c = true
    · rw [if_pos hc] at h
      simp only [List.cons_append, List.dropWhile_cons, hc, if_true]
      exact ih h
    · rw [if_neg hc] at h
      simp [List.dropWhile_cons, hc]

theorem takeWhile_append_all {p : Char → Bool} {u : Str}
    (hall : ∀ c ∈ u, p c = true) {d : Char} (hd : p d = false) (s : Str) :
    List.takeWhile p (u ++ d :: s) = u := by
  induction u with
  | nil => simp [List.takeWhile_cons, hd]
  | cons c t ih =>
    have hc : p c = true := hall c (List.mem_cons_self _ _)
    simp only [List.cons_append, List.takeWhile_cons, hc, if_pos]
    rw [ih (fun x hx => hall x (List.mem_cons_of_mem c hx))]

theorem mem_takeWhile_pred {p : Char → Bool} :
    ∀ {l : Str} {c : Char}, c ∈ List.takeWhile p l → p c = true := by
  intro l
  induction l with
  | nil => intro c hc; simp [List.takeWhile] at hc
  | cons a t ih =>
    intro c hc
    simp only [List.takeWhile_cons] at hc
    by_cases ha : p a = true
    · rw [if_pos ha] at hc
      rcases List.mem_cons.mp hc with h1 | h1
      · exact h1 ▸ ha
      · exact ih h1
    · simp [ha] at hc

/-! ## Deduplicating event router (`handleResult`, lines 211–229, and the
informer callbacks, lines 1218–1233)

`processedResources` is a `map[string]bool` guarded by `processedMutex`;
the critical section is exactly the check-and-set at the top of
`handleResult`.  Because the mutex serialises that section, any
concurrent delivery of events linearises to a sequence of atomic
`gateCheckAndSet` steps, which is what the trace functions below
iterate. -/

abbrev PMap := Str → Option Bool

/-- One watch event: the resource's `metadata.uid` and `metadata.name`
(the dedup key is the uid, falling back to the name), plus whether the
downstream pipeline (GitHub fetch onwards) would succeed for it.  The
outcome field exists only so theorems can quantify over pipeline
failures: the gate itself never reads it, exactly as in the code. -/
structure DiagEvent where
  uid : Str
  name : Str
  fetchOk : Bool

/-- `resourceID := uid; if resourceID == "" { resourceID = name }`. -/
def eventId (ev : DiagEvent) : Str := if ev.uid.isEmpty then ev.name else ev.uid

/-- The mutex-guarded check-and-set on `processedResources`: skip when
the entry exists and is `true`, otherwise mark `true` and proceed.
Returns (pipeline runs?, updated map). -/
def gateCheckAndSet (m : PMap) (id : Str) : Bool × PMap :=
  match m id with
  | some true => (false, m)
  | _ => (true, fun x => if x = id then some true else m x)

/-- `handleResult` as seen by the dedup state: the gate runs first; when
it passes, the identity is already marked and the pipeline (fetch, AI
call, publish) runs afterwards without ever touching the map again.
Returns (updated map, pipeline ran?). -/
def handleEvent (m : PMap) (ev : DiagEvent) : PMap × Bool :=
  let g := gateCheckAndSet m (eventId ev)
  (g.2, g.1)

/-- The informer's `UpdateFunc` (lines 1222–1232): `handleResult` is
invoked only when the old and new `metadata.resourceVersion` differ. -/
def updateEvent (m : PMap) (oldVersion newVersion : Str) (ev : DiagEvent) :
    PMap × Bool :=
  if oldVersion ≠ newVersion then handleEvent m ev else (m, false)

/-- Number of events in a trace whose identity is `id` and which pass
the gate (i.e. run the pipeline), starting from map state `m`. -/
def passesD (m : PMap) : List DiagEvent → Str → Nat
  | [], _ => 0
  | ev :: rest, id =>
    let g := gateCheckAndSet m (eventId ev)
    (if eventId ev = id ∧ g.1 = true then 1 else 0) + passesD g.2 rest id

theorem gateCheckAndSet_marks (m : PMap) (id : Str) :
    ((gateCheckAndSet m id).2) id = some true := by
  rcases h : m id with _ | b
  · simp [gateCheckAndSet, h]
  · cases b
    · simp [gateCheckAndSet, h]
    · simp [gateCheckAndSet, h]

theorem gateCheckAndSet_mono {m : PMap} {x : Str} (h : m x = some true)
    (id : Str) : ((gateCheckAndSet m id).2) x = some true := by
  rcases hm : m id with _ | b
  · simp only [gateCheckAndSet, hm]
    by_cases hx : x = id
    · simp [hx]
    · simp [hx, h]
  · cases b
    · simp only [gateCheckAndSet, hm]
      by_cases hx : x = id
      · simp [hx]
      · simp [hx, h]
    · simp [gateCheckAndSet, hm, h]

theorem gateCheckAndSet_skip {m : PMap} {id : Str} (h : m id = some true) :
    (gateCheckAndSet m id).1 = false := by
  simp [gateCheckAndSet, h]

theorem passesD_zero_of_marked :
    ∀ (evs : List DiagEvent) (m : PMap) (id : Str), m id = some true →
      passesD m evs id = 0 := by
  intro evs
  induction evs with
  | nil => intro m id _; rfl
  | cons ev rest ih =>
    intro m id h
    simp only [passesD]
    have hskip : ¬ (eventId ev = id ∧ (gateCheckAndSet m (eventId ev)).1 = true) := by
      rintro ⟨h1, h2⟩
      rw [h1] at h2
      rw [gateCheckAndSet_skip h] at h2
      exact Bool.false_ne_true h2
    rw [if_neg hskip, ih _ _ (gateCheckAndSet_mono h (eventId ev))]

/-! ## Namespace resolution (`handleResult`, lines 231–253) -/

/-- Namespace/name extraction from `spec.name` and `metadata.namespace`,
transcribed from `handleResult`: returns (namespace, name). -/
def resolveDiag (resourceName metaNamespace : Str) : Str × Str :=
  if !resourceName.isEmpty && containsSub resourceName (("/").data) then
    match splitN2 resourceName (("/").data) with
    | [a, b] => (a, b)
    | _ => ((("default").data), resourceName)
  else
    (if metaNamespace.isEmpty then (("default").data) else metaNamespace,
     resourceName)

/-- The claim's resolution order, written from its words: (a) the prefix
before `/` in the spec name when present, (b) the metadata namespace
otherwise, (c) the literal `"default"` when that is empty. -/
def resolveNamespaceClaim (resourceName metaNamespace : Str) : Str :=
  if containsSub resourceName (("/").data) then
    resourceName.takeWhile (fun c => !(c == '/'))
  else if metaNamespace.isEmpty then (("default").data)
  else metaNamespace

theorem indexOfSub_slash {rn : Str}
    (h : containsSub rn (("/").data) = true) :
    ∃ i, indexOfSub rn (("/").data) = some i ∧
      rn.take i = rn.takeWhile (fun c => !(c == '/')) := by
  induction rn with
  | nil => simp [containsSub, strStartsWith] at h
  | cons c t ih =>
    by_cases hc : c = '/'
    · refine ⟨0, ?_, ?_⟩
      · simp [indexOfSub, strStartsWith, hc]
      · simp [List.takeWhile_cons, hc]
    · have hsw : strStartsWith (c :: t) (("/").data) = false := by
        simpa using strStartsWith_head_ne hc t []
      have ht : containsSub t (("/").data) = true := by
        have hor := h
        simp only [containsSub] at hor
        rcases Bool.or_eq_true _ _ |>.mp hor with h1 | h1
        · rw [hsw] at h1; exact absurd h1 (by simp)
        · exact h1
      rcases ih ht with ⟨i, hi, htake⟩
      refine ⟨i + 1, ?_, ?_⟩
      · simp [indexOfSub, hsw, hi]
      · simp [List.take_succ_cons, List.takeWhile_cons, hc, htake]

/-! ## Local fallback heuristic (`generateLocalFallbackResponse`,
lines 918–1031, and `updateMemoryLimits` / `extractIndentation`,
lines 1034–1088) -/

structure FileUpdate where
  path : Str
  content : Str
deriving DecidableEq

def sResourcesColon : Str := ("resources:").data
def sLimitsColon : Str := ("limits:").data
def sRequestsColon : Str := ("requests:").data
def sMemoryColon : Str := ("memory:").data
def sMemorySp : Str := ("memory: ").data
def sSpace : Str := (" ").data
def sTab : Str := ("\t").data
def sNewline : Str := ("\n").data

/-- `extractIndentation`: the leading run of spaces and tabs. -/
def extractIndentation (line : Str) : Str :=
  line.takeWhile (fun c => c == ' ' || c == '\t')

/-- The body of the `for i, line := range lines` loop of
`updateMemoryLimits`: given the `inResources` / `inLimits` flags, return
the (possibly rewritten) line and the updated flags.  Each `continue`
branch keeps the line; only the final `memory:` branch rewrites it. -/
def lineStep (target : Str) (inR inL : Bool) (line : Str) : Str × Bool × Bool :=
  let trimmed := goTrimSpace line
  if strStartsWith trimmed sResourcesColon then (line, true, inL)
  else if inR && !strStartsWith line sSpace && !strStartsWith line sTab &&
      !trimmed.isEmpty then (line, false, false)
  else if inR && strStartsWith trimmed sLimitsColon then (line, inR, true)
  else if inL && strStartsWith trimmed sRequestsColon then (line, inR, false)
  else if inL && strStartsWith trimmed sMemoryColon then
    (extractIndentation line ++ sMemorySp ++ target, inR, inL)
  else (line, inR, inL)

def updateLinesGo (target : Str) : Bool → Bool → List Str → List Str
  | _, _, [] => []
  | inR, inL, line :: rest =>
    let s := lineStep target inR inL line
    s.1 :: updateLinesGo target s.2.1 s.2.2 rest

/-- `updateMemoryLimits`: split into lines, run the indentation-aware
state machine, join back with newlines. -/
def updateMemoryLimits (content target : Str) : Str :=
  joinWith sNewline (updateLinesGo target false false (splitOnChar '\n' content))

/-- The `deploymentName` extraction: text after the first `name:` up to
the end of that line, trimmed; empty when the newline immediately
follows or is missing. -/
def extractDeploymentName (content : Str) : Str :=
  match indexOfSub content (("name:").data) with
  | none => []
  | some idx =>
    let sub := content.drop (idx + 5)
    match indexOfSub sub sNewline with
    | none => []
    | some e => if 0 < e then goTrimSpace (sub.take e) else []

/-- The `memoryLimit` extraction: the text after the first `memory:`
found past the first `limits:`, up to the end of that line, trimmed;
guarded by a `resources` substring check. -/
def extractMemoryLimit (content : Str) : Str :=
  if containsSub content (("resources").data) then
    match indexOfSub content sLimitsColon with
    | none => []
    | some idx =>
      let sub := content.drop idx
      match indexOfSub sub sMemoryColon with
      | none => []
      | some m =>
        let rest := (content.drop idx).drop (m + 7)
        match indexOfSub rest sNewline with
        | none => []
        | some e => if 0 < e then goTrimSpace (rest.take e) else []
  else []

/-- The memory-value parse loop: leading digits as the number, the rest
as the unit; `strconv.Atoi` on an empty digit string fails, in which
case both stay at their zero values. -/
def numSplit : Str → Str × Str
  | [] => ([], [])
  | c :: t =>
    if isDigitChar c then
      let r := numSplit t
      (c :: r.1, r.2)
    else ([], c :: t)

def parseMem (memoryLimit : Str) : Nat × Str :=
  let r := numSplit memoryLimit
  if !r.1.isEmpty then (digitsVal r.1, r.2) else (0, [])

/-- The replacement limit chosen by the heuristic: `256Mi` when the
parsed value is zero (absent/unparsable) or below 64, otherwise 1.5×
the value with the unit suffix kept.  Go computes
`int(float64(currentMem) * 1.5)`, which equals `currentMem * 3 / 2` in
integer arithmetic for every value below 2^52 (far above any memory
limit; `float64` is exact there). -/
def targetFor (memoryLimit : Str) : Str :=
  let p := parseMem memoryLimit
  if p.1 == 0 || p.1 < 64 then ("256Mi").data
  else natToStr (p.1 * 3 / 2) ++ p.2

/-- The per-file body of `generateLocalFallbackResponse`'s loop. -/
def processFileFallback (name content : Str) : List FileUpdate :=
  if strEndsWith name ((".yaml").data) || strEndsWith name ((".yml").data) then
    if containsSub content (("kind: Deployment").data) then
      if !(extractDeploymentName content).isEmpty then
        let updated := updateMemoryLimits content (targetFor (extractMemoryLimit content))
        if updated ≠ content then [⟨name, updated⟩] else []
      else []
    else []
  else []

/-- Case-insensitive OOM detection on the solution text. -/
def isOOMSolution (solution : Str) : Bool :=
  containsSub (solution.map Char.toLower) (("oomkilled").data) ||
  containsSub (solution.map Char.toLower) (("out of memory").data)

/-- `generateLocalFallbackResponse`.  The Go file map is modelled as an
association list; map iteration order is unspecified in Go, so the list
order stands for one arbitrary iteration order. -/
def generateLocalFallbackResponse (solution : Str) (files : List (Str × Str)) :
    List FileUpdate :=
  if !isOOMSolution solution then []
  else files.flatMap (fun f => processFileFallback f.1 f.2)

/-! ## Rate-limited file fetch (`fetchFileContent`, lines 507–588)

Durations are integer nanoseconds (`time.Duration`).  Each loop
iteration performs one HTTP request; the environment function supplies
the response and the current wall-clock time (in ns since the epoch)
observed at that iteration, since `time.Until` is re-evaluated per
attempt.  Transport-level errors return immediately in the code and are
outside this model, which is about the rate-limit retry loop. -/

structure GHResp where
  status : Nat
  rateRemaining : Str
  rateReset : Str
  body : Str

/-- `resp.StatusCode == http.StatusForbidden &&
resp.Header.Get("X-RateLimit-Remaining") == "0"`. -/
def isRateLimitedResp (r : GHResp) : Bool :=
  r.status == 403 && r.rateRemaining == ("0").data

def oneSecNs : Int := 1000000000

def fiveMinNs : Int := 300 * oneSecNs

/-- The sleep chosen for a rate-limited attempt `i` (0-based): if the
`X-RateLimit-Reset` header is non-empty and parses and the implied wait
`time.Until(time.Unix(reset, 0))` is strictly between 0 and 5 minutes,
sleep that wait plus one second; otherwise exponential backoff
`(1 << i)` seconds. -/
def rateLimitSleep (attempt : Nat) (resetHeader : Str) (nowNs : Int) : Int :=
  match (if resetHeader.isEmpty then none else goParseInt resetHeader) with
  | some reset =>
    let waitNs := reset * oneSecNs - nowNs
    if 0 < waitNs ∧ waitNs < fiveMinNs then waitNs + oneSecNs
    else Int.ofNat (1 <<< attempt) * oneSecNs
  | none => Int.ofNat (1 <<< attempt) * oneSecNs

/-- The `for i := 0; i < maxRetries; i++` loop with `maxRetries := 3`:
a non-rate-limited response breaks out; a rate-limited one sleeps and
retries, the loop also exiting (holding the last rate-limited response)
once `i` reaches 3.  Returns the response held after the loop and the
list of sleeps performed.  `fuel` counts the remaining iterations
(`3 - i`). -/
def fetchLoopGo (env : Nat → GHResp × Int) : Nat → Nat → GHResp × List Int
  | 0, i => ((env i).1, [])
  | fuel + 1, i =>
    let resp := (env i).1
    if isRateLimitedResp resp then
      let s := rateLimitSleep i resp.rateReset (env i).2
      match fuel with
      | 0 => (resp, [s])
      | f + 1 =>
        let k := fetchLoopGo env (f + 1) (i + 1)
        (k.1, s :: k.2)
    else (resp, [])

def ghFileErrMsg (status : Nat) (body : Str) : Str :=
  ("GitHub API error (status ").data ++ natToStr status ++ ("): ").data ++ body

/-- `fetchFileContent` after the loop: any non-200 status (including the
rate-limited 403 held after exhausting the retries) is surfaced as an
error carrying the status and body.  The successful base64 decode of the
body is irrelevant to the retry claim and collapsed to `ok`. -/
def fetchFileContentModel (env : Nat → GHResp × Int) :
    Except Str Unit × List Int :=
  let r := fetchLoopGo env 3 0
  (if r.1.status ≠ 200 then Except.error (ghFileErrMsg r.1.status r.1.body)
   else Except.ok (), r.2)

/-! ## AI endpoint call (`sendToAIEndpoint` / `tryAIEndpoint`,
lines 591–854) -/

/-- Outcome of one `tryAIEndpoint` attempt: success, a non-HTTP failure
(transport error or timeout, carrying the full error text built by
`tryAIEndpoint`), or a non-success HTTP status with the response body. -/
inductive AIOutcome where
  | success : AIOutcome
  | failWith : Str → AIOutcome
  | httpFail : Nat → Str → AIOutcome
deriving DecidableEq

def nonSuccessMarker : Str := ("received non-success status code").data

/-- `fmt.Errorf("received non-success status code %d: %s", status, body)`. -/
def httpErrMsg (status : Nat) (body : Str) : Str :=
  nonSuccessMarker ++ (" ").data ++ natToStr status ++ (": ").data ++ body

def attemptErrMsg : AIOutcome → Option Str
  | .success => none
  | .failWith m => some m
  | .httpFail s b => some (httpErrMsg s b)

/-- The `sendToAIEndpoint` condition for NOT retrying an attempt: the
error text contains the non-success marker but none of the substrings
"429", "500", "502", "503", "504".  Note it inspects the whole error
text, which includes the HTTP response body. -/
def nonRetryableErr (e : Str) : Bool :=
  containsSub e nonSuccessMarker &&
  !containsSub e (("429").data) && !containsSub e (("500").data) &&
  !containsSub e (("502").data) && !containsSub e (("503").data) &&
  !containsSub e (("504").data)

/-- Backoff before retry attempt `i` (`i ≥ 1`): `(1 << i)` seconds,
capped at 30. -/
def aiBackoff (attempt : Nat) : Nat :=
  let b := 1 <<< attempt
  if b > 30 then 30 else b

inductive AILoopExit where
  | gotResponse (attemptsUsed : Nat)
  | nonRetryableExit (attemptsUsed : Nat)
  | exhausted
deriving DecidableEq

/-- The retry loop of `sendToAIEndpoint`: before each attempt past the
first, sleep the capped backoff; a successful attempt breaks out with a
response; a non-retryable error returns the fallback immediately; any
other failure retries until the attempt budget is exhausted.  Returns
the exit kind and the backoff sleeps performed. -/
def aiLoopGo (out : Nat → AIOutcome) : Nat → Nat → AILoopExit × List Nat
  | 0, _ => (.exhausted, [])
  | fuel + 1, attempt =>
    let sleeps := if 0 < attempt then [aiBackoff attempt] else []
    match out attempt with
    | .success => (.gotResponse (attempt + 1), sleeps)
    | o =>
      let e := (attemptErrMsg o).getD []
      if nonRetryableErr e then (.nonRetryableExit (attempt + 1), sleeps)
      else
        let k := aiLoopGo out fuel (attempt + 1)
        (k.1, sleeps ++ k.2)

/-- Result classification of a whole `sendToAIEndpoint` call.  Every
`fallback…` constructor corresponds to a `return
generateLocalFallbackResponse(solution, files), nil` in the code — the
fallback is produced unconditionally on those paths. -/
inductive AIResultKind where
  | updatesFromAI (attemptsUsed : Nat)
  | fallbackHealth
  | fallbackNonRetryable (attemptsUsed : Nat)
  | fallbackParse (attemptsUsed : Nat)
  | fallbackExhausted
deriving DecidableEq

/-- The controller configuration fields feeding `sendToAIEndpoint`.
`useFallback` mirrors the `USE_FALLBACK` environment flag (line 172);
it is carried here so theorems can quantify over it. -/
structure Config where
  aiMaxRetries : Nat
  aiHealthCheck : Bool
  useFallback : Bool

/-- `sendToAIEndpoint`: health gate, retry loop, then response parsing
(`extractFileUpdatesFromResponse`, abstracted to the boolean
`parseOk`); every failure path degrades to the local fallback. -/
def sendToAIModel (cfg : Config) (endpointHealthyNow : Bool)
    (out : Nat → AIOutcome) (parseOk : Bool) : AIResultKind × List Nat :=
  if cfg.aiHealthCheck && !endpointHealthyNow then (.fallbackHealth, [])
  else
    match aiLoopGo out cfg.aiMaxRetries 0 with
    | (.gotResponse k, ss) =>
      ((if parseOk then .updatesFromAI k else .fallbackParse k), ss)
    | (.nonRetryableExit k, ss) => (.fallbackNonRetryable k, ss)
    | (.exhausted, ss) => (.fallbackExhausted, ss)

/-! ## Publishing (`sendToGHService`, lines 1147–1165) -/

inductive GHSendAttempt where
  | transportErr (msg : Str)
  | httpResp (status : Nat) (body : Str)

def ghTransportErrMsg (m : Str) : Str :=
  ("failed to send request to gh-service: ").data ++ m

def ghRejectMsg (status : Nat) (body : Str) : Str :=
  ("gh-service returned error status ").data ++ natToStr status ++
    (": ").data ++ body

/-- `sendToGHService` response handling: a transport failure is wrapped
in its own error; a response with status ≥ 400 becomes an error carrying
the status and the response body; anything else is success. -/
def sendToGHServiceModel : GHSendAttempt → Except Str Unit
  | .transportErr m => Except.error (ghTransportErrMsg m)
  | .httpResp s b =>
    if 400 ≤ s then Except.error (ghRejectMsg s b) else Except.ok ()

/-! ## Concrete deployment manifests used as test vectors -/

def deploy6Mi : Str := ("apiVersion: apps/v1\nkind: Deployment\nmetadata:\n  name: demo\nspec:\n  template:\n    spec:\n      containers:\n      - name: app\n        image: nginx\n        resources:\n          limits:\n            memory: 6Mi\n          requests:\n            memory: 6Mi\n").data

def deploy6MiPatched : Str := ("apiVersion: apps/v1\nkind: Deployment\nmetadata:\n  name: demo\nspec:\n  template:\n    spec:\n      containers:\n      - name: app\n        image: nginx\n        resources:\n          limits:\n            memory: 256Mi\n          requests:\n            memory: 6Mi\n").data

def deploy6MiPatchedTwice : Str := ("apiVersion: apps/v1\nkind: Deployment\nmetadata:\n  name: demo\nspec:\n  template:\n    spec:\n      containers:\n      - name: app\n        image: nginx\n        resources:\n          limits:\n            memory: 384Mi\n          requests:\n            memory: 6Mi\n").data

def deploy128Mi : Str := ("apiVersion: apps/v1\nkind: Deployment\nmetadata:\n  name: demo\nspec:\n  template:\n    spec:\n      containers:\n      - name: app\n        image: nginx\n        resources:\n          limits:\n            memory: 128Mi\n          requests:\n            memory: 128Mi\n").data

def deploy128MiPatched : Str := ("apiVersion: apps/v1\nkind: Deployment\nmetadata:\n  name: demo\nspec:\n  template:\n    spec:\n      containers:\n      - name: app\n        image: nginx\n        resources:\n          limits:\n            memory: 192Mi\n          requests:\n            memory: 128Mi\n").data

/-- A Deployment manifest with a `resources.limits` section but no
`memory` line at all. -/
def deployNoMem : Str := ("apiVersion: apps/v1\nkind: Deployment\nmetadata:\n  name: demo\nspec:\n  template:\n    spec:\n      containers:\n      - name: app\n        resources:\n          limits:\n            cpu: \"1\"\n").data

/-! ## Claims C1, C2, C10: the dedup gate -/

/-- C1: for every diagnostic identity, across any number of duplicate
add-events delivered concurrently or sequentially (linearised by the
mutex into a sequence of atomic check-and-set steps), the processing
pipeline executes at most once — no two events for the same identity
both pass the dedup gate — and from a fresh map, N+1 duplicate events
yield exactly one pipeline run. -/
theorem C1_dedup_pipeline_at_most_once :
    (∀ (m : PMap) (evs : List DiagEvent) (id : Str), passesD m evs id ≤ 1) ∧
    (∀ (ev : DiagEvent) (n : Nat),
      passesD (fun _ => none) (List.replicate (n + 1) ev) (eventId ev) = 1) := by
  constructor
  · intro m evs
    induction evs generalizing m with
    | nil => intro id; simp [passesD]
    | cons ev rest ih =>
      intro id
      simp only [passesD]
      by_cases h : eventId ev = id ∧ (gateCheckAndSet m (eventId ev)).1 = true
      · rw [if_pos h]
        have hmark : ((gateCheckAndSet m (eventId ev)).2) id = some true := by
          rw [← h.1]; exact gateCheckAndSet_marks m (eventId ev)
        rw [passesD_zero_of_marked rest _ id hmark]
      · rw [if_neg h]
        simpa using ih _ id
  · intro ev n
    rw [List.replicate_succ]
    have hpass : (gateCheckAndSet (fun _ => none) (eventId ev)).1 = true := by
      simp [gateCheckAndSet]
    have hzero := passesD_zero_of_marked (List.replicate n ev)
      ((gateCheckAndSet (fun _ => none) (eventId ev)).2) (eventId ev)
      (gateCheckAndSet_marks _ _)
    simp [passesD, hpass, hzero]

/-- C2: an update-type event whose resourceVersion equals the last seen
value for the resource leads to no pipeline execution at all —
`handleResult` is not invoked and the processed map is untouched — even
when the identity is not yet marked processed (the map `m` is
arbitrary, including maps where the identity is absent). -/
theorem C2_unchanged_resource_version_skips :
    ∀ (m : PMap) (v : Str) (ev : DiagEvent), updateEvent m v v ev = (m, false) := by
  intro m v ev
  simp [updateEvent]

/-- C10: the identity is marked in the processed map at the instant the
gate passes, before the pipeline runs; no operation ever removes or
resets an entry (both the add path and the update path only preserve
`true` entries); the map does not depend on the pipeline outcome; and
an identity whose gate passed but whose pipeline failed (e.g. the
source fetch errored) is never reprocessed in any later trace. -/
theorem C10_processed_mark_is_permanent :
    (∀ (m : PMap) (id : Str), (gateCheckAndSet m id).1 = true →
        ((gateCheckAndSet m id).2) id = some true) ∧
    (∀ (m : PMap) (ev : DiagEvent) (x : Str), m x = some true →
        ((handleEvent m ev).1) x = some true) ∧
    (∀ (m : PMap) (oldV newV : Str) (ev : DiagEvent) (x : Str), m x = some true →
        ((updateEvent m oldV newV ev).1) x = some true) ∧
    (∀ (m : PMap) (u nm : Str) (ok1 ok2 : Bool),
        (handleEvent m ⟨u, nm, ok1⟩).1 = (handleEvent m ⟨u, nm, ok2⟩).1) ∧
    (∀ (m : PMap) (ev : DiagEvent) (evs : List DiagEvent),
        (handleEvent m ev).2 = true → ev.fetchOk = false →
        passesD ((handleEvent m ev).1) evs (eventId ev) = 0) := by
  refine ⟨?_, ?_, ?_, ?_, ?_⟩
  · intro m id _
    exact gateCheckAndSet_marks m id
  · intro m ev x h
    exact gateCheckAndSet_mono h (eventId ev)
  · intro m oldV newV ev x h
    by_cases hv : oldV ≠ newV
    · simp only [updateEvent, if_pos hv]
      exact gateCheckAndSet_mono h (eventId ev)
    · simp only [updateEvent, if_neg hv]
      exact h
  · intro m u nm ok1 ok2
    rfl
  · intro m ev evs _ _
    exact passesD_zero_of_marked evs _ _ (gateCheckAndSet_marks m (eventId ev))

/-- Witness for C10 at concrete inputs: a first event for uid-1 whose
pipeline fails still blocks a later event for uid-1, and marked entries
survive further events. -/
theorem C10_witness :
    ((handleEvent (fun _ => some true) ⟨("u2").data, ("r2").data, true⟩).1)
        (("u9").data) = some true ∧
    passesD ((handleEvent (fun _ => none) ⟨("u1").data, ("r1").data, false⟩).1)
      [⟨("u1").data, ("r1").data, true⟩]
      (eventId ⟨("u1").data, ("r1").data, false⟩) = 0 := by
  constructor
  · exact C10_processed_mark_is_permanent.2.1 (fun _ => some true)
      ⟨("u2").data, ("r2").data, true⟩ (("u9").data) rfl
  · exact C10_processed_mark_is_permanent.2.2.2.2 (fun _ => none)
      ⟨("u1").data, ("r1").data, false⟩ [⟨("u1").data, ("r1").data, true⟩]
      rfl rfl

/-! ## Claim C8: namespace resolution -/

/-- C8: the diagnostic namespace is (a) the prefix before the first `/`
of the spec name when a slash is present, else (b) the resource's
metadata namespace, else (c) the literal `"default"` when that is
empty; together with the three concrete examples from the spec. -/
theorem C8_namespace_resolution :
    (∀ (rn mns : Str), (resolveDiag rn mns).1 = resolveNamespaceClaim rn mns) ∧
    resolveDiag (("nginx-unstable/nginx-oom-7445cfcc57-mh8s7").data) [] =
      ((("nginx-unstable").data), (("nginx-oom-7445cfcc57-mh8s7").data)) ∧
    (resolveDiag (("justname").data) (("prod").data)).1 = ("prod").data ∧
    (resolveDiag (("justname").data) []).1 = ("default").data := by
  refine ⟨?_, by rfl, by rfl, by rfl⟩
  intro rn mns
  by_cases hc : containsSub rn (("/").data) = true
  · have hne : rn ≠ [] := by
      intro h
      rw [h] at hc
      simp [containsSub, strStartsWith] at hc
    rcases indexOfSub_slash hc with ⟨i, hi, htake⟩
    cases rn with
    | nil => exact absurd rfl hne
    | cons c t =>
      simp only [resolveDiag, resolveNamespaceClaim, splitN2, hi, hc,
        List.isEmpty_cons, Bool.not_false, Bool.true_and, if_pos]
      rw [← htake]
  · have hc2 : containsSub rn (("/").data) = false := by
      simpa using hc
    simp [resolveDiag, resolveNamespaceClaim, hc2]

/-! ## Claim C9: the USE_FALLBACK flag -/

/-- C9: the `useFallback` configuration field has no effect on the
result of the remediation engine: two calls whose configurations differ
only in that field return identical results (the local fallback is
taken on health failure, non-retryable error, parse failure and retry
exhaustion without consulting the flag). -/
theorem C9_useFallback_flag_has_no_effect :
    ∀ (retries : Nat) (healthFlag healthy : Bool) (out : Nat → AIOutcome)
      (parseOk : Bool) (b1 b2 : Bool),
      sendToAIModel (Config.mk retries healthFlag b1) healthy out parseOk =
      sendToAIModel (Config.mk retries healthFlag b2) healthy out parseOk := by
  intro retries healthFlag healthy out parseOk b1 b2
  rfl

/-! ## Claim C3: the fallback heuristic -/

theorem processFileFallback_mem {n c : Str} {u : FileUpdate}
    (hu : u ∈ processFileFallback n c) : u.path = n ∧ u.content ≠ c := by
  simp only [processFileFallback] at hu
  split at hu
  · split at hu
    · split at hu
      · split at hu
        · rename_i hne
          rw [List.mem_singleton] at hu
          subst hu
          exact ⟨rfl, hne⟩
        · simp at hu
      · simp at hu
    · simp at hu
  · simp at hu

theorem lineStep_fst_of_no_mem {t : Str} {l : Str}
    (hl : strStartsWith (goTrimSpace l) sMemoryColon = false)
    (a b : Bool) : (lineStep t a b l).1 = l := by
  simp only [lineStep]
  split_ifs with h1 h2 h3 h4 h5 <;> try rfl
  rw [Bool.and_eq_true] at h5
  rw [hl] at h5
  exact absurd h5.2 (by simp)

theorem updateLinesGo_id_of_no_mem {t : Str} :
    ∀ (ls : List Str),
      (∀ l ∈ ls, strStartsWith (goTrimSpace l) sMemoryColon = false) →
      ∀ a b, updateLinesGo t a b ls = ls := by
  intro ls
  induction ls with
  | nil => intro _ a b; rfl
  | cons l rest ih =>
    intro h a b
    have hl := h l (List.mem_cons_self _ _)
    simp only [updateLinesGo]
    rw [lineStep_fst_of_no_mem hl]
    rw [ih (fun x hx => h x (List.mem_cons_of_mem l hx))]

/-- A file with no `memory:` occurrence anywhere is returned unchanged
by `updateMemoryLimits`, whatever the target. -/
theorem updateMemoryLimits_eq_self {c : Str}
    (h : containsSub c sMemoryColon = false) (t : Str) :
    updateMemoryLimits c t = c := by
  have hlines : ∀ l ∈ splitOnChar '\n' c,
      strStartsWith (goTrimSpace l) sMemoryColon = false := by
    intro l hl
    by_contra hsw
    have hsw2 : strStartsWith (goTrimSpace l) sMemoryColon = true := by
      simpa using hsw
    have h2 : containsSub l sMemoryColon = true :=
      containsSub_of_trim (containsSub_of_startsWith hsw2)
    have h3 : containsSub c l = true := containsSub_of_mem_splitOnChar hl
    have h4 := containsSub_trans h3 h2
    rw [h] at h4
    exact absurd h4 (by simp)
  rw [updateMemoryLimits, updateLinesGo_id_of_no_mem _ hlines]
  exact join_splitOnChar '\n' c

theorem processFileFallback_no_memory_line (n : Str) {c : Str}
    (h : containsSub c sMemoryColon = false) : processFileFallback n c = [] := by
  simp only [processFileFallback]
  split_ifs with h1 h2 h3 h4 <;> try rfl
  exact absurd (updateMemoryLimits_eq_self h _) h4

theorem targetFor_lt {mem : Str} (h : (parseMem mem).1 < 64) :
    targetFor mem = ("256Mi").data := by
  have h1 : decide ((parseMem mem).1 < 64) = true := by simpa using h
  simp [targetFor, h1]

theorem targetFor_ge {mem : Str} (h : 64 ≤ (parseMem mem).1) :
    targetFor mem = natToStr ((parseMem mem).1 * 3 / 2) ++ (parseMem mem).2 := by
  have h0 : ((parseMem mem).1 == 0) = false := by
    simp only [beq_eq_false_iff_ne, ne_eq]
    omega
  have h1 : decide ((parseMem mem).1 < 64) = false := by
    simp only [decide_eq_false_iff_not, not_lt]
    omega
  simp [targetFor, h0, h1]

/-- C3 (amended): for an OOM-indicating solution, every FileUpdate the
heuristic produces refers to a file of the input set and has content
that actually differs from that file's original content; a Deployment
file with no `memory:` line is left alone (no FileUpdate — nothing is
inserted); when the extracted limit parses below 64 the target is the
fixed default 256Mi and otherwise it is 1.5× the value with the unit
suffix kept; concretely, a limit of 6Mi becomes 256Mi and one of 128Mi
becomes 192Mi. -/
theorem C3_fallback_heuristic :
    (∀ (sol : Str) (files : List (Str × Str)) (u : FileUpdate),
        u ∈ generateLocalFallbackResponse sol files →
        ∃ p, p ∈ files ∧ u.path = p.1 ∧ u.content ≠ p.2) ∧
    (∀ (n : Str) {c : Str}, containsSub c sMemoryColon = false →
        processFileFallback n c = []) ∧
    (∀ {mem : Str}, (parseMem mem).1 < 64 → targetFor mem = ("256Mi").data) ∧
    (∀ {mem : Str}, 64 ≤ (parseMem mem).1 →
        targetFor mem = natToStr ((parseMem mem).1 * 3 / 2) ++ (parseMem mem).2) ∧
    generateLocalFallbackResponse (("oomkilled").data)
        [((("app.yaml").data), deploy6Mi)]
      = [⟨(("app.yaml").data), deploy6MiPatched⟩] ∧
    generateLocalFallbackResponse (("OOMKilled pod; raise limits").data)
        [((("app.yaml").data), deploy128Mi)]
      = [⟨(("app.yaml").data), deploy128MiPatched⟩] := by
  refine ⟨?_, ?_, ?_, ?_, by rfl, by rfl⟩
  · intro sol files u hu
    simp only [generateLocalFallbackResponse] at hu
    split at hu
    · simp at hu
    · rcases List.mem_flatMap.mp hu with ⟨f, hf, hu2⟩
      have h := processFileFallback_mem hu2
      exact ⟨f, hf, h.1, h.2⟩
  · intro n c h
    exact processFileFallback_no_memory_line n h
  · intro mem h
    exact targetFor_lt h
  · intro mem h
    exact targetFor_ge h

/-- C3 counterexample: a `.yaml` Deployment file whose
`resources.limits` section has no `memory` line.  The claim as stated
requires the heuristic to set the (absent) limit to 256Mi and emit a
FileUpdate; the code emits nothing for it. -/
theorem C3_counterexample :
    isOOMSolution (("oomkilled").data) = true ∧
    strEndsWith (("app.yaml").data) ((".yaml").data) = true ∧
    containsSub deployNoMem (("kind: Deployment").data) = true ∧
    generateLocalFallbackResponse (("oomkilled").data)
      [((("app.yaml").data), deployNoMem)] = [] := by
  exact ⟨rfl, rfl, rfl, rfl⟩

/-- Witness for C3 at concrete inputs: the changed-only property at the
6Mi deployment, and the 1.5× scaling rule at "128Mi". -/
theorem C3_witness :
    (∃ p, p ∈ [((("app.yaml").data), deploy6Mi)] ∧
      (FileUpdate.mk (("app.yaml").data) deploy6MiPatched).path = p.1 ∧
      (FileUpdate.mk (("app.yaml").data) deploy6MiPatched).content ≠ p.2) ∧
    targetFor (("128Mi").data) = ("192Mi").data := by
  constructor
  · exact C3_fallback_heuristic.1 (("oomkilled").data)
      [((("app.yaml").data), deploy6Mi)]
      (FileUpdate.mk (("app.yaml").data) deploy6MiPatched) (by decide)
  · exact C3_fallback_heuristic.2.2.2.1 (by decide)

/-! ## Claim C4: idempotence of the line rewriter -/

theorem spaceTab_isSpace {c : Char} (h : (c == ' ' || c == '\t') = true) :
    isSpaceChar c = true := by
  rcases Bool.or_eq_true _ _ |>.mp h with h1 | h1
  · rw [show c = ' ' by simpa using h1]; rfl
  · rw [show c = '\t' by simpa using h1]; rfl

theorem mem_extractIndentation {c : Char} {l : Str}
    (h : c ∈ extractIndentation l) : (c == ' ' || c == '\t') = true :=
  mem_takeWhile_pred h

theorem trimLeading_append_indent {ind : Str}
    (h : ∀ c ∈ ind, isSpaceChar c = true) (s : Str) :
    trimLeading (ind ++ s) = trimLeading s := by
  unfold trimLeading
  refine dropWhile_append_of_nil ?_ s
  rw [List.dropWhile_eq_nil_iff]
  exact fun x hx => h x hx

theorem startsWith_trimTrailing_append {a : Str} (ha : trimTrailing a = a)
    (s : Str) : strStartsWith (trimTrailing (a ++ s)) a = true := by
  have hrev : (a ++ s).reverse = s.reverse ++ a.reverse := by
    simp [List.reverse_append]
  rcases h : List.dropWhile isSpaceChar s.reverse with _ | ⟨c, u⟩
  · have : trimTrailing (a ++ s) = trimTrailing a := by
      unfold trimTrailing
      rw [hrev, dropWhile_append_of_nil h]
    rw [this, ha]
    exact strStartsWith_refl a
  · have : trimTrailing (a ++ s) = a ++ (c :: u).reverse := by
      unfold trimTrailing
      rw [hrev, dropWhile_append_of_ne_nil (by simp [h]) a.reverse, h]
      simp [List.reverse_append]
    rw [this]
    exact strStartsWith_append_self a _

theorem mem_of_mem_takeWhile {p : Char → Bool} :
    ∀ {l : Str} {c : Char}, c ∈ List.takeWhile p l → c ∈ l := by
  intro l
  induction l with
  | nil => intro c hc; simp [List.takeWhile] at hc
  | cons a t ih =>
    intro c hc
    simp only [List.takeWhile_cons] at hc
    by_cases ha : p a = true
    · rw [if_pos ha] at hc
      rcases List.mem_cons.mp hc with h1 | h1
      · exact h1 ▸ List.mem_cons_self a t
      · exact List.mem_cons_of_mem a (ih h1)
    · simp [ha] at hc

/-- The trimmed form of a rewritten memory line still starts with
`memory:`. -/
theorem trimmed_rewritten {ind : Str}
    (hind : ∀ c ∈ ind, (c == ' ' || c == '\t') = true) (t : Str) :
    strStartsWith (goTrimSpace (ind ++ sMemorySp ++ t)) sMemoryColon = true := by
  unfold goTrimSpace
  rw [List.append_assoc,
    trimLeading_append_indent (fun c hc => spaceTab_isSpace (hind c hc))]
  have h1 : trimLeading (sMemorySp ++ t) = sMemorySp ++ t := by
    show List.dropWhile _ _ = _
    rw [show sMemorySp ++ t = 'm' :: ((("emory: ").data) ++ t) from rfl]
    rw [List.dropWhile_cons_of_neg (by decide)]
  rw [h1, show sMemorySp ++ t = sMemoryColon ++ (' ' :: t) from rfl]
  exact startsWith_trimTrailing_append (by rfl) _

theorem extractIndentation_rewritten {ind : Str}
    (hind : ∀ c ∈ ind, (c == ' ' || c == '\t') = true) (t : Str) :
    extractIndentation (ind ++ sMemorySp ++ t) = ind := by
  unfold extractIndentation
  rw [List.append_assoc,
    show sMemorySp ++ t = 'm' :: ((("emory: ").data) ++ t) from rfl]
  exact takeWhile_append_all hind (by decide) _

theorem lineStep_idem (t : Str) (a b : Bool) (line : Str) :
    lineStep t a b ((lineStep t a b line).1) = lineStep t a b line := by
  by_cases h1 : strStartsWith (goTrimSpace line) sResourcesColon = true
  · have e : lineStep t a b line = (line, true, b) := by
      simp only [lineStep]
      rw [if_pos h1]
    rw [e]; exact e
  by_cases h2 : (a && !strStartsWith line sSpace && !strStartsWith line sTab &&
      !(goTrimSpace line).isEmpty) = true
  · have e : lineStep t a b line = (line, false, false) := by
      simp only [lineStep]
      rw [if_neg h1, if_pos h2]
    rw [e]; exact e
  by_cases h3 : (a && strStartsWith (goTrimSpace line) sLimitsColon) = true
  · have e : lineStep t a b line = (line, a, true) := by
      simp only [lineStep]
      rw [if_neg h1, if_neg h2, if_pos h3]
    rw [e]; exact e
  by_cases h4 : (b && strStartsWith (goTrimSpace line) sRequestsColon) = true
  · have e : lineStep t a b line = (line, a, false) := by
      simp only [lineStep]
      rw [if_neg h1, if_neg h2, if_neg h3, if_pos h4]
    rw [e]; exact e
  by_cases h5 : (b && strStartsWith (goTrimSpace line) sMemoryColon) = true
  case neg =>
    have e : lineStep t a b line = (line, a, b) := by
      simp only [lineStep]
      rw [if_neg h1, if_neg h2, if_neg h3, if_neg h4, if_neg h5]
    rw [e]; exact e
  case pos =>
    rw [Bool.and_eq_true] at h5
    obtain ⟨hb, hsw⟩ := h5
    have e : lineStep t a b line =
        (extractIndentation line ++ sMemorySp ++ t, a, b) := by
      simp only [lineStep]
      rw [if_neg h1, if_neg h2, if_neg h3, if_neg h4,
        if_pos (by rw [Bool.and_eq_true]; exact ⟨hb, hsw⟩)]
    rw [e]
    have hind : ∀ c ∈ extractIndentation line, (c == ' ' || c == '\t') = true :=
      fun c hc => mem_extractIndentation hc
    have htr := trimmed_rewritten hind t
    rcases strStartsWith_cons htr with ⟨x, hx, _⟩
    have f1 : strStartsWith
        (goTrimSpace (extractIndentation line ++ sMemorySp ++ t))
        sResourcesColon = false := by
      rw [hx, show sResourcesColon = 'r' :: (("esources:").data) from rfl]
      exact strStartsWith_head_ne (by decide) _ _
    have f3 : strStartsWith
        (goTrimSpace (extractIndentation line ++ sMemorySp ++ t))
        sLimitsColon = false := by
      rw [hx, show sLimitsColon = 'l' :: (("imits:").data) from rfl]
      exact strStartsWith_head_ne (by decide) _ _
    have f4 : strStartsWith
        (goTrimSpace (extractIndentation line ++ sMemorySp ++ t))
        sRequestsColon = false := by
      rw [hx, show sRequestsColon = 'r' :: (("equests:").data) from rfl]
      exact strStartsWith_head_ne (by decide) _ _
    have f2 : (a && !strStartsWith (extractIndentation line ++ sMemorySp ++ t) sSpace
        && !strStartsWith (extractIndentation line ++ sMemorySp ++ t) sTab
        && !(goTrimSpace (extractIndentation line ++ sMemorySp ++ t)).isEmpty)
        = false := by
      rcases hi : extractIndentation line with _ | ⟨c0, ind2⟩
      · -- no indentation: the original line starts with a non-space
        -- character, so the first-pass unindented guard forced a = false
        have hlne : line ≠ [] := by
          intro hl
          rw [hl] at hsw
          exact absurd hsw (by decide)
        rcases hline : line with _ | ⟨ch, rest2⟩
        · exact absurd hline hlne
        · rw [hline] at hi
          unfold extractIndentation at hi
          rcases hch : (ch == ' ' || ch == '\t') with _ | _
          · have hsp : strStartsWith line sSpace = false := by
              rw [hline, show sSpace = ' ' :: ([] : Str) from rfl]
              simp only [strStartsWith, strStartsWith_nil_pattern, Bool.and_true]
              rcases Bool.or_eq_false_iff.mp hch with ⟨hc1, _⟩
              exact hc1
            have htb : strStartsWith line sTab = false := by
              rw [hline, show sTab = '\t' :: ([] : Str) from rfl]
              simp only [strStartsWith, strStartsWith_nil_pattern, Bool.and_true]
              rcases Bool.or_eq_false_iff.mp hch with ⟨_, hc2⟩
              exact hc2
            have hte : (goTrimSpace line).isEmpty = false := by
              have hne : goTrimSpace line ≠ [] := by
                have hsw2 : strStartsWith (goTrimSpace line)
                    ('m' :: (("emory:").data)) = true := hsw
                exact strStartsWith_ne_nil hsw2
              rcases hgt : goTrimSpace line with _ | _
              · exact absurd hgt hne
              · rfl
            have ha : a = false := by
              rcases haa : a with _ | _
              · rfl
              · exfalso
                apply h2
                rw [haa, hsp, htb, hte]
                rfl
            rw [ha]
            rfl
          · exfalso
            simp [List.takeWhile_cons, hch] at hi
      · -- indented: the rewritten line starts with a space or a tab
        have hmem : c0 ∈ extractIndentation line := by
          rw [hi]
          exact List.mem_cons_self c0 ind2
        have hc0 := hind c0 hmem
        rcases Bool.or_eq_true _ _ |>.mp hc0 with hc | hc
        · have hsp1 : strStartsWith ((c0 :: ind2) ++ sMemorySp ++ t)
              sSpace = true := by
            rw [show (c0 :: ind2) ++ sMemorySp ++ t
                = c0 :: (ind2 ++ sMemorySp ++ t) from rfl,
              show sSpace = ' ' :: ([] : Str) from rfl]
            simp only [strStartsWith, strStartsWith_nil_pattern, Bool.and_true]
            exact hc
          rw [hsp1]
          simp
        · have htb1 : strStartsWith ((c0 :: ind2) ++ sMemorySp ++ t)
              sTab = true := by
            rw [show (c0 :: ind2) ++ sMemorySp ++ t
                = c0 :: (ind2 ++ sMemorySp ++ t) from rfl,
              show sTab = '\t' :: ([] : Str) from rfl]
            simp only [strStartsWith, strStartsWith_nil_pattern, Bool.and_true]
            exact hc
          rw [htb1]
          simp
    have goalstep : lineStep t a b (extractIndentation line ++ sMemorySp ++ t)
        = (extractIndentation line ++ sMemorySp ++ t, a, b) := by
      simp only [lineStep]
      rw [if_neg (by rw [f1]; simp), if_neg (by rw [f2]; simp),
        if_neg (by rw [f3]; simp),
        if_neg (by rw [f4]; simp),
        if_pos (by rw [Bool.and_eq_true]; exact ⟨hb, htr⟩)]
      rw [extractIndentation_rewritten hind]
    exact goalstep

theorem updateLinesGo_idem (t : Str) :
    ∀ (ls : List Str) (a b : Bool),
      updateLinesGo t a b (updateLinesGo t a b ls) = updateLinesGo t a b ls := by
  intro ls
  induction ls with
  | nil => intro a b; rfl
  | cons l rest ih =>
    intro a b
    simp only [updateLinesGo]
    rw [show lineStep t a b ((lineStep t a b l).1) = lineStep t a b l from
      lineStep_idem t a b l]
    rw [ih]

theorem updateLinesGo_ne_nil {t : Str} {ls : List Str} (h : ls ≠ [])
    (a b : Bool) : updateLinesGo t a b ls ≠ [] := by
  cases ls with
  | nil => exact absurd rfl h
  | cons l rest => simp [updateLinesGo]

theorem lineStep_fst_cases (t : Str) (a b : Bool) (l : Str) :
    (lineStep t a b l).1 = l ∨
    (lineStep t a b l).1 = extractIndentation l ++ sMemorySp ++ t := by
  simp only [lineStep]
  split_ifs <;> simp

theorem mem_updateLinesGo_no_nl {t : Str} (ht : ('\n' : Char) ∉ t) :
    ∀ (ls : List Str), (∀ l ∈ ls, ('\n' : Char) ∉ l) →
      ∀ (a b : Bool), ∀ l2 ∈ updateLinesGo t a b ls, ('\n' : Char) ∉ l2 := by
  intro ls
  induction ls with
  | nil => intro _ a b l2 h2; simp [updateLinesGo] at h2
  | cons l rest ih =>
    intro h a b l2 h2
    simp only [updateLinesGo, List.mem_cons] at h2
    rcases h2 with h2 | h2
    · subst h2
      rcases lineStep_fst_cases t a b l with hc | hc
      · rw [hc]; exact h l (List.mem_cons_self _ _)
      · rw [hc]
        intro hmem
        rcases List.mem_append.mp hmem with hm | hm
        · rcases List.mem_append.mp hm with hm2 | hm2
          · exact h l (List.mem_cons_self _ _)
              (List.takeWhile_subset (fun c => c == ' ' || c == '\t') hm2)
          · exact absurd hm2 (by decide)
        · exact ht hm
    · exact ih (fun x hx => h x (List.mem_cons_of_mem l hx)) _ _ l2 h2

/-- C4 (amended): the underlying line rewriter `updateMemoryLimits` is
idempotent for a fixed newline-free target — rewriting an
already-rewritten file is a no-op — although (see the counterexample)
the full heuristic, whose target depends on the current limit, is not:
re-running it on a patched file that now meets the threshold scales the
limit by 1.5× again and emits a further FileUpdate. -/
theorem C4_updateMemoryLimits_idem :
    ∀ (c t : Str), ('\n' : Char) ∉ t →
      updateMemoryLimits (updateMemoryLimits c t) t = updateMemoryLimits c t := by
  intro c t ht
  have hnl : ∀ l ∈ splitOnChar '\n' c, ('\n' : Char) ∉ l :=
    fun l hl => mem_splitOnChar_not_mem hl
  have hsplit : splitOnChar '\n'
      (joinWith sNewline (updateLinesGo t false false (splitOnChar '\n' c)))
      = updateLinesGo t false false (splitOnChar '\n' c) := by
    rw [show sNewline = ['\n'] from rfl]
    refine splitOnChar_joinWith ?_ ?_
    · exact updateLinesGo_ne_nil (splitOnChar_ne_nil '\n' c) false false
    · exact fun l hl => mem_updateLinesGo_no_nl ht _ hnl false false l hl
  simp only [updateMemoryLimits]
  rw [hsplit, updateLinesGo_idem]

/-- C4 counterexample: the heuristic patches the 6Mi deployment to
256Mi; applying the heuristic a second time to that output produces a
further FileUpdate (scaling 256Mi to 384Mi), so the second application
does not yield "no further FileUpdate" as the claim states. -/
theorem C4_counterexample :
    generateLocalFallbackResponse (("oomkilled").data)
        [((("app.yaml").data), deploy6Mi)]
      = [⟨(("app.yaml").data), deploy6MiPatched⟩] ∧
    generateLocalFallbackResponse (("oomkilled").data)
        [((("app.yaml").data), deploy6MiPatched)]
      = [⟨(("app.yaml").data), deploy6MiPatchedTwice⟩] := ⟨rfl, rfl⟩

/-- Witness for C4 at a concrete input. -/
theorem C4_witness :
    updateMemoryLimits (updateMemoryLimits deploy6Mi (("256Mi").data))
      (("256Mi").data) = updateMemoryLimits deploy6Mi (("256Mi").data) :=
  C4_updateMemoryLimits_idem deploy6Mi (("256Mi").data) (by decide)

/-! ## Claim C5: rate-limit retry on file fetch -/

/-- C5 (amended): on a usable reset-time hint the sleep is the implied
wait plus one second, hence always strictly below 5 minutes + 1 second
(it can slightly exceed 5 minutes, see the counterexample); when the
hint is absent/unparsable/out of range, the sleep is exponential
backoff, 1s, 2s, 4s over the three attempts; and when every attempt is
rate-limited the loop gives up after exactly 3 requests (3 sleeps) and
surfaces the rate-limit 403 response as an error to the caller. -/
theorem C5_rate_limit_retry :
    (∀ (i : Nat) (resetHeader : Str) (nowNs : Int), i < 3 →
        rateLimitSleep i resetHeader nowNs < fiveMinNs + oneSecNs) ∧
    (∀ (i : Nat) (resetHeader : Str) (nowNs : Int),
        (if resetHeader.isEmpty then none else goParseInt resetHeader) = none →
        rateLimitSleep i resetHeader nowNs = Int.ofNat (1 <<< i) * oneSecNs) ∧
    (∀ (i : Nat) (resetHeader : Str) (nowNs r : Int),
        (if resetHeader.isEmpty then none else goParseInt resetHeader) = some r →
        ¬ (0 < r * oneSecNs - nowNs ∧ r * oneSecNs - nowNs < fiveMinNs) →
        rateLimitSleep i resetHeader nowNs = Int.ofNat (1 <<< i) * oneSecNs) ∧
    (∀ (nowNs : Int), rateLimitSleep 0 [] nowNs = oneSecNs ∧
        rateLimitSleep 1 [] nowNs = 2 * oneSecNs ∧
        rateLimitSleep 2 [] nowNs = 4 * oneSecNs) ∧
    (∀ (env : Nat → GHResp × Int),
        (∀ i, i < 3 → isRateLimitedResp (env i).1 = true) →
        ∃ body, (fetchFileContentModel env).1 =
            Except.error (ghFileErrMsg 403 body) ∧
          ((fetchFileContentModel env).2).length = 3) := by
  refine ⟨?_, ?_, ?_, ?_, ?_⟩
  · intro i resetHeader nowNs hi
    simp only [rateLimitSleep]
    rcases hp : (if resetHeader.isEmpty then none else goParseInt resetHeader)
      with _ | r
    · show Int.ofNat (1 <<< i) * oneSecNs < fiveMinNs + oneSecNs
      interval_cases i <;> decide
    · show (if 0 < r * oneSecNs - nowNs ∧ r * oneSecNs - nowNs < fiveMinNs
          then r * oneSecNs - nowNs + oneSecNs
          else Int.ofNat (1 <<< i) * oneSecNs) < fiveMinNs + oneSecNs
      split_ifs with hr
      · exact add_lt_add_right hr.2 _
      · interval_cases i <;> decide
  · intro i resetHeader nowNs hp
    simp only [rateLimitSleep, hp]
  · intro i resetHeader nowNs r hp hr
    simp only [rateLimitSleep, hp]
    rw [if_neg hr]
  · intro nowNs
    exact ⟨rfl, rfl, rfl⟩
  · intro env h
    have h0 := h 0 (by omega)
    have h1 := h 1 (by omega)
    have h2 := h 2 (by omega)
    have e0 : fetchLoopGo env 3 0
        = ((env 2).1, [rateLimitSleep 0 (env 0).1.rateReset (env 0).2,
            rateLimitSleep 1 (env 1).1.rateReset (env 1).2,
            rateLimitSleep 2 (env 2).1.rateReset (env 2).2]) := by
      simp [fetchLoopGo, h0, h1, h2]
    have hst : (env 2).1.status = 403 := by
      have hb := (Bool.and_eq_true _ _).mp h2 |>.1
      simpa using hb
    refine ⟨(env 2).1.body, ?_, ?_⟩
    · simp only [fetchFileContentModel, e0]
      rw [hst]
      rfl
    · simp [fetchFileContentModel, e0]

/-- C5 counterexample: with a reset hint 300 seconds after the epoch
observed at time 1ns, the implied wait is 299999999999ns (just under 5
minutes, so the hint branch is taken) and the sleep is that plus one
second — 300999999999ns, longer than the claimed 5-minute bound. -/
theorem C5_counterexample :
    fiveMinNs < rateLimitSleep 0 (("300").data) 1 ∧
    rateLimitSleep 0 (("300").data) 1 = 300999999999 := by
  constructor
  · decide
  · decide

/-- Witness for C5 at a concrete environment where every attempt is
rate-limited with an empty reset header. -/
theorem C5_witness :
    ∃ body, (fetchFileContentModel
        (fun _ => (GHResp.mk 403 (("0").data) [] (("limited").data), 0))).1 =
        Except.error (ghFileErrMsg 403 body) ∧
      ((fetchFileContentModel
        (fun _ => (GHResp.mk 403 (("0").data) [] (("limited").data), 0))).2).length
        = 3 :=
  C5_rate_limit_retry.2.2.2.2
    (fun _ => (GHResp.mk 403 (("0").data) [] (("limited").data), 0))
    (fun _ _ => rfl)

/-! ## Claim C6: AI endpoint retry policy -/

/-- Any `httpFail` error text contains the decimal rendering of its own
status code. -/
theorem contains_httpErrMsg_code (s : Nat) (b : Str) :
    containsSub (httpErrMsg s b) (natToStr s) = true := by
  unfold httpErrMsg
  apply containsSub_append_left
  apply containsSub_append_left
  apply containsSub_append_right
  exact containsSub_of_startsWith (strStartsWith_refl _)

/-- C6 (amended): an attempt whose error text contains the non-success
marker but none of the substrings "429", "500", "502", "503", "504"
immediately triggers the local fallback, with no further attempt; the
five retryable statuses always produce a retryable error text whatever
the body; an error text without the marker (transport failure, timeout)
is always retryable; the backoff between attempts is capped at 30s; and
a call never looks beyond its attempt budget (3 by default), i.e. the
loop's result depends only on the first `fuel` attempt outcomes. -/
theorem C6_ai_retry_policy :
    (∀ (out : Nat → AIOutcome) (fuel i : Nat) (o : AIOutcome) (e : Str),
        out i = o → attemptErrMsg o = some e → nonRetryableErr e = true →
        aiLoopGo out (fuel + 1) i =
          (.nonRetryableExit (i + 1), if 0 < i then [aiBackoff i] else [])) ∧
    (∀ (b : Str), nonRetryableErr (httpErrMsg 429 b) = false ∧
        nonRetryableErr (httpErrMsg 500 b) = false ∧
        nonRetryableErr (httpErrMsg 502 b) = false ∧
        nonRetryableErr (httpErrMsg 503 b) = false ∧
        nonRetryableErr (httpErrMsg 504 b) = false) ∧
    (∀ (m : Str), containsSub m nonSuccessMarker = false →
        nonRetryableErr m = false) ∧
    (∀ (i : Nat), aiBackoff i ≤ 30) ∧
    (∀ (out1 out2 : Nat → AIOutcome) (fuel i : Nat),
        (∀ j, j < i + fuel → out1 j = out2 j) →
        aiLoopGo out1 fuel i = aiLoopGo out2 fuel i) := by
  refine ⟨?_, ?_, ?_, ?_, ?_⟩
  · intro out fuel i o e hout herr hnr
    cases o with
    | success => simp [attemptErrMsg] at herr
    | failWith m =>
      simp only [attemptErrMsg, Option.some.injEq] at herr
      subst herr
      simp only [aiLoopGo]
      rw [hout]
      simp [attemptErrMsg, hnr]
    | httpFail s b =>
      simp only [attemptErrMsg, Option.some.injEq] at herr
      subst herr
      simp only [aiLoopGo]
      rw [hout]
      simp [attemptErrMsg, hnr]
  · intro b
    refine ⟨?_, ?_, ?_, ?_, ?_⟩ <;>
    · unfold nonRetryableErr
      first
      | (have hcode : containsSub (httpErrMsg 429 b) (("429").data) = true :=
          contains_httpErrMsg_code 429 b
         rw [hcode]; simp)
      | (have hcode : containsSub (httpErrMsg 500 b) (("500").data) = true :=
          contains_httpErrMsg_code 500 b
         rw [hcode]; simp)
      | (have hcode : containsSub (httpErrMsg 502 b) (("502").data) = true :=
          contains_httpErrMsg_code 502 b
         rw [hcode]; simp)
      | (have hcode : containsSub (httpErrMsg 503 b) (("503").data) = true :=
          contains_httpErrMsg_code 503 b
         rw [hcode]; simp)
      | (have hcode : containsSub (httpErrMsg 504 b) (("504").data) = true :=
          contains_httpErrMsg_code 504 b
         rw [hcode]; simp)
  · intro m h
    unfold nonRetryableErr
    rw [h]
    simp
  · intro i
    show (if 1 <<< i > 30 then 30 else 1 <<< i) ≤ 30
    split_ifs with h
    · exact le_refl 30
    · omega
  · intro out1 out2 fuel
    induction fuel with
    | zero => intro i _; rfl
    | succ fuel ih =>
      intro i h
      simp only [aiLoopGo]
      rw [h i (by omega)]
      rw [ih (i + 1) (fun j hj => h j (by omega))]

/-- C6 counterexample: an HTTP 400 response — a non-retryable status per
the claim — whose body happens to contain the substring "429" is
retried until exhaustion (three attempts, with 2s and 4s backoffs)
instead of being terminal for the call. -/
theorem C6_counterexample :
    nonRetryableErr (httpErrMsg 400 (("quota 429 exceeded").data)) = false ∧
    aiLoopGo (fun _ => AIOutcome.httpFail 400 (("quota 429 exceeded").data)) 3 0
      = (AILoopExit.exhausted, [2, 4]) := by
  exact ⟨rfl, rfl⟩

/-- Witness for C6 at a concrete input: a 404 with a benign body is
terminal on the first attempt. -/
theorem C6_witness :
    aiLoopGo (fun _ => AIOutcome.httpFail 404 (("not found").data)) 3 0
      = (AILoopExit.nonRetryableExit 1, []) := by
  have h := C6_ai_retry_policy.1
    (fun _ => AIOutcome.httpFail 404 (("not found").data)) 2 0
    (AIOutcome.httpFail 404 (("not found").data))
    (httpErrMsg 404 (("not found").data)) rfl rfl (by decide)
  simpa using h

/-! ## Claim C7: publisher error surface -/

/-- C7 (amended): a response with status ≥ 400 is surfaced as an error
with the response body attached; a response with status < 400 —
including a 3xx reaching the caller, see the counterexample — is
treated as success; and a transport failure is surfaced as an error
textually distinct from every application-level rejection, so callers
can tell the two apart. -/
theorem C7_publisher_error_surface :
    (∀ (s : Nat) (b : Str), 400 ≤ s →
        sendToGHServiceModel (.httpResp s b) = Except.error (ghRejectMsg s b)) ∧
    (∀ (s : Nat) (b : Str), s < 400 →
        sendToGHServiceModel (.httpResp s b) = Except.ok ()) ∧
    (∀ (m : Str) (s : Nat) (b : Str), ghTransportErrMsg m ≠ ghRejectMsg s b) ∧
    (∀ (m : Str) (s : Nat) (b : Str),
        sendToGHServiceModel (.transportErr m) ≠
        sendToGHServiceModel (.httpResp s b)) := by
  have key : ∀ (m : Str) (s : Nat) (b : Str), ghTransportErrMsg m ≠ ghRejectMsg s b := by
    intro m s b h
    have h1 : (ghTransportErrMsg m).head? = some 'f' := rfl
    have h2 : (ghRejectMsg s b).head? = some 'g' := rfl
    rw [h, h2] at h1
    exact absurd h1 (by decide)
  refine ⟨?_, ?_, key, ?_⟩
  · intro s b h
    simp only [sendToGHServiceModel, if_pos h]
  · intro s b h
    simp only [sendToGHServiceModel, if_neg (by omega : ¬ 400 ≤ s)]
  · intro m s b
    by_cases hs : 400 ≤ s
    · simp only [sendToGHServiceModel, if_pos hs]
      intro h
      exact key m s b (by injection h)
    · simp only [sendToGHServiceModel, if_neg hs]
      simp

/-- C7 counterexample: a 301 response — not a 2xx — reaching the caller
is treated as success, not surfaced as an error as the claim states. -/
theorem C7_counterexample :
    (¬ (200 ≤ 301 ∧ 301 < 300)) ∧
    sendToGHServiceModel (.httpResp 301 (("moved").data)) = Except.ok () := by
  exact ⟨by omega, rfl⟩

/-- Witness for C7 at a concrete rejection. -/
theorem C7_witness :
    sendToGHServiceModel (.httpResp 500 (("boom").data))
      = Except.error (ghRejectMsg 500 (("boom").data)) :=
  C7_publisher_error_surface.1 500 (("boom").data) (by omega)

end ProfTournesol
